import Mathlib

/-!
# Verification of the review-comment download pipeline and CSV row tools

This file gives a shallow embedding of the Python scripts
`download-github-review-comments.py`, `pick-csv-rows.py` and the CSV
serialization they rely on, and proves the testable properties stated in
the specification.

Modelling choices:

* The remote GraphQL service is abstracted as a `World`: a function from
  continuation cursors to pages of pull requests, and a function from a
  pull-request number to the (already nested) list of review nodes with
  their comment nodes, exactly the data the two queries in the script
  consume.
* The lazy generator pipeline of the script is embedded as its *event
  trace*: the list of remote queries issued and rows produced, in
  program order.  `filter` keeps the query events and drops non-matching
  row events; `itertools.islice(it, n)` consumes the trace up to and
  including the `n`-th row event and nothing after it (CPython's
  `islice` pulls exactly `n` items from the underlying iterator).
* Python's truthiness tests `if extension:` and `if max_rows:` are
  embedded by treating `None`/`""` and `None`/`0` alike.
* `csv.writer`/`csv.reader` with the default dialect (delimiter `,`,
  quote char `"`, minimal quoting, doubled quotes, `\r\n` terminator)
  are embedded as `writeCsv`/`parseCsv` over `List Char`.
* Machine integers are embedded as `Nat`/`Int`; Python list slicing in
  `pick-csv-rows.py` is embedded with its clamping and negative-index
  semantics (`pySliceStop`, `pySliceStart`).
-/

namespace PyTools

/-! ## Data model (from `download-github-review-comments.py`) -/

/-- One page of a paginated GraphQL result: the `PaginatedList` dataclass. -/
structure PaginatedList (T : Type) where
  elements : List T
  end_cursor : String
  has_next : Bool
deriving DecidableEq, Repr

/-- The `PullRequest` dataclass: PR number and `reviews.totalCount`. -/
structure PullRequest where
  number : Nat
  review_count : Nat
deriving DecidableEq, Repr

/-- The `ReviewComment` dataclass: opaque id, file path, comment body. -/
structure ReviewComment where
  id : String
  path : String
  body : String
deriving DecidableEq, Repr

/-- One review node of the nested `GetPullRequestReviewComments` response:
its id and its comment nodes. -/
structure Review where
  id : String
  comments : List ReviewComment
deriving DecidableEq, Repr

/-- The remote service, as the two queries of the script see it: pages of
pull requests addressed by continuation cursor, and the review nodes
returned for a pull-request number. -/
structure World where
  prFetch : String → PaginatedList PullRequest
  reviewFetch : Nat → List Review

/-- A remote query issued by the script: a pull-request page query with its
`after` cursor, or a per-PR review-comment query with its PR number. -/
inductive Query
  | page (after : String)
  | comments (prNumber : Nat)
deriving DecidableEq, Repr

/-- An observable event of the generator pipeline: a remote query, or a
`(path, body)` row produced downstream. -/
inductive Ev
  | query (q : Query)
  | row (path body : String)
deriving DecidableEq, Repr

/-- The rows produced along an event trace, in order. -/
def evRows : List Ev → List (String × String)
  | [] => []
  | Ev.row p b :: rest => (p, b) :: evRows rest
  | Ev.query _ :: rest => evRows rest

/-- The queries issued along an event trace, in order. -/
def evQueries : List Ev → List Query
  | [] => []
  | Ev.row _ _ :: rest => evQueries rest
  | Ev.query q :: rest => q :: evQueries rest

/-- Python's `str.endswith`, modelled as a suffix test on the character
lists of the strings. -/
def py_endswith (s sfx : String) : Bool :=
  sfx.data.isSuffixOf s.data

/-! ## The pipeline (from `download-github-review-comments.py`) -/

/-- The generator `iterate_pull_requests` (lines 92-100): repeatedly fetch
a page at the current cursor, yield its elements, and continue with the
returned `end_cursor` while `has_next` holds.  `fuel` bounds the number of
page fetches so the loop is total; the result pairs the yielded pull
requests with the list of cursors actually fetched, in order. -/
def iterate_pull_requests (fetch : String → PaginatedList PullRequest) :
    Nat → String → List PullRequest × List String
  | 0, _ => ([], [])
  | fuel + 1, after =>
    let response := fetch after
    if response.has_next then
      let rest := iterate_pull_requests fetch fuel response.end_cursor
      (response.elements ++ rest.1, after :: rest.2)
    else
      (response.elements, [after])

/-- The generator `get_pull_request_review_comments` (lines 115-154):
flatten the nested review → comment nodes of the per-PR query response
into a flat comment list (`comment_nodes = [cnode for rnode in
review_nodes for cnode in rnode.comments.nodes]`). -/
def get_pull_request_review_comments (w : World) (pr_number : Nat) : List ReviewComment :=
  (w.reviewFetch pr_number).flatMap (fun rnode => rnode.comments)

/-- The events contributed by one pull request inside
`iterate_pull_request_review_comments`: reviewed PRs (`review_count > 0`)
cost one comment query and then yield each flattened comment;
unreviewed PRs are skipped by the `filter` and contribute nothing. -/
def yieldCommentsForPR (w : World) (pr : PullRequest) : List Ev :=
  if 0 < pr.review_count then
    Ev.query (Query.comments pr.number) ::
      (get_pull_request_review_comments w pr.number).map (fun rc => Ev.row rc.path rc.body)
  else []

/-- The generator `iterate_pull_request_review_comments` (lines 156-160)
as an event trace: page queries of the underlying `iterate_pull_requests`
(started at the empty cursor) interleaved, in pull order, with the
per-reviewed-PR comment queries and the comments they yield. -/
def iterate_pull_request_review_comments (w : World) : Nat → String → List Ev
  | 0, _ => []
  | fuel + 1, after =>
    let response := w.prFetch after
    Ev.query (Query.page after) ::
      response.elements.flatMap (yieldCommentsForPR w) ++
        (if response.has_next then
          iterate_pull_request_review_comments w fuel response.end_cursor
        else [])

/-- The `filter(lambda rc: rc.path.endswith(extension), it)` stage (line
166) on an event trace: row events whose path does not end with the
extension are dropped; query events pass through unchanged. -/
def filterEvents (extension : String) : List Ev → List Ev
  | [] => []
  | Ev.row p b :: rest =>
    if py_endswith p extension then Ev.row p b :: filterEvents extension rest
    else filterEvents extension rest
  | Ev.query q :: rest => Ev.query q :: filterEvents extension rest

/-- The `itertools.islice(it, max_rows)` stage (line 168) on an event
trace: the pipeline is pulled until `n` rows have been produced and not
afterwards, so the trace is cut immediately after the `n`-th row event
(dropping, in particular, every later query). -/
def isliceEvents : Nat → List Ev → List Ev
  | _, [] => []
  | n, Ev.query q :: rest =>
    if n = 0 then [] else Ev.query q :: isliceEvents n rest
  | n, Ev.row p b :: rest =>
    if n = 0 then []
    else if n = 1 then [Ev.row p b]
    else Ev.row p b :: isliceEvents (n - 1) rest

/-- The driver `download_pull_request_review_comments` (lines 162-173) as
an event trace: the comment pipeline for merged PRs, optionally filtered
by path extension (`if extension:` — skipped for `None` and for the empty
string), optionally capped (`if max_rows:` — skipped for `None` and for
`0`).  The rows of the trace are exactly the rows written to the output
file, in order. -/
def download_pull_request_review_comments (w : World) (fuel : Nat)
    (extension : Option String) (max_rows : Option Nat) : List Ev :=
  let it0 := iterate_pull_request_review_comments w fuel ""
  let it1 := match extension with
    | none => it0
    | some e => if e = "" then it0 else filterEvents e it0
  match max_rows with
  | none => it1
  | some n => if n = 0 then it1 else isliceEvents n it1

/-! ## Startup credential check (lines 176-179) -/

/-- The `__main__` startup check: `os.getenv('GITHUB_TOKEN')` is `None`
(absent) or a string; `if not github_token:` rejects both `None` and the
empty string with a message on standard error and exit status 1. -/
def startup_check (env_github_token : Option String) : Except (String × Nat) String :=
  match env_github_token with
  | none => Except.error ("ERROR: GITHUB_TOKEN is not available", 1)
  | some t =>
    if t = "" then Except.error ("ERROR: GITHUB_TOKEN is not available", 1)
    else Except.ok t

/-- The `__main__` block up to the download call: on a failed credential
check the process stops with the error and no remote query is issued
(the event trace is empty); otherwise the download runs. -/
def run_main (env_github_token : Option String) (w : World) (fuel : Nat)
    (extension : Option String) (max_rows : Option Nat) :
    Option (String × Nat) × List Ev :=
  match startup_check env_github_token with
  | Except.error e => (some e, [])
  | Except.ok _ => (none, download_pull_request_review_comments w fuel extension max_rows)

/-! ## CSV serialization (`csv.writer` / `csv.reader`, default dialect)

The driver writes with `csv.writer(f)` on a file opened with
`newline=''`: delimiter `,`, quote char `"`, minimal quoting (a field is
quoted iff it contains a delimiter, a quote char, or a line-terminator
character), quotes doubled inside quoted fields, rows terminated by
`\r\n` written literally. -/

/-- Double every quote character of a field body (the `doublequote=True`
escaping of `csv.writer`). -/
def escapeChars : List Char → List Char
  | [] => []
  | c :: rest =>
    if c = '"' then '"' :: '"' :: escapeChars rest else c :: escapeChars rest

/-- A field needs quoting iff it contains the delimiter, the quote
character, or a character of the `\r\n` line terminator. -/
def needsQuoting (s : List Char) : Bool :=
  s.any (fun c => c = ',' || c = '"' || c = '\r' || c = '\n')

/-- Serialize one field with minimal quoting. -/
def writeField (s : List Char) : List Char :=
  if needsQuoting s then '"' :: (escapeChars s ++ ['"']) else s

/-- Serialize one two-field row `(path, body)` as `csv.writer.writerow`
does, including the `\r\n` terminator. -/
def writeRow (path body : List Char) : List Char :=
  writeField path ++ [','] ++ writeField body ++ ['\r', '\n']

/-- Serialize a sequence of `(path, body)` pairs, one row per pair, as the
write loop of the driver does: the content of the output file. -/
def writeCsv (rows : List (String × String)) : List Char :=
  rows.flatMap (fun r => writeRow r.1.data r.2.data)

/-- The file content produced by a run of the download driver. -/
def downloadFileContent (w : World) (fuel : Nat)
    (extension : Option String) (max_rows : Option Nat) : List Char :=
  writeCsv (evRows (download_pull_request_review_comments w fuel extension max_rows))

/-- Parse the inside of a quoted field (`csv.reader`): a doubled quote is
a literal quote, a single quote closes the field; `none` on an
unterminated field. -/
def parseQuotedField : List Char → List Char → Option (String × List Char)
  | [], _ => none
  | c :: rest, acc =>
    if c = '"' then
      match rest with
      | [] => some (⟨acc⟩, [])
      | c2 :: rest2 =>
        if c2 = '"' then parseQuotedField rest2 (acc ++ ['"'])
        else some (⟨acc⟩, c2 :: rest2)
    else parseQuotedField rest (acc ++ [c])

/-- A character that ends an unquoted field: the delimiter or a
line-terminator character. -/
def isFieldEnd (c : Char) : Bool :=
  c = ',' || c = '\r' || c = '\n'

/-- Parse an unquoted field: consume characters up to (not including) the
delimiter or line end. -/
def parseBareField : List Char → List Char → String × List Char
  | [], acc => (⟨acc⟩, [])
  | c :: rest, acc =>
    if isFieldEnd c then (⟨acc⟩, c :: rest)
    else parseBareField rest (acc ++ [c])

/-- Parse one field: quoted if it starts with the quote character, bare
otherwise.  The remaining input starts at the field terminator. -/
def parseField : List Char → Option (String × List Char)
  | [] => some ("", [])
  | c :: rest =>
    if c = '"' then parseQuotedField rest []
    else parseBareField (c :: rest) []

/-- Parse one record: fields separated by `,`, ended by `\r\n`, `\n`, a
bare `\r`, or the end of input.  `none` on a malformed record (content
after a closing quote) or on fuel exhaustion. -/
def parseRecordAux : Nat → List Char → List String → Option (List String × List Char)
  | 0, _, _ => none
  | fuel + 1, l, fields =>
    match parseField l with
    | none => none
    | some (f, rest) =>
      match rest with
      | [] => some (fields ++ [f], [])
      | c :: rest2 =>
        if c = ',' then parseRecordAux fuel rest2 (fields ++ [f])
        else if c = '\r' then
          match rest2 with
          | '\n' :: rest3 => some (fields ++ [f], rest3)
          | _ => some (fields ++ [f], rest2)
        else if c = '\n' then some (fields ++ [f], rest2)
        else none

/-- Parse a sequence of records until the input is exhausted. -/
def parseRecords : Nat → List Char → Option (List (List String))
  | _, [] => some []
  | 0, _ => none
  | fuel + 1, l =>
    match parseRecordAux (l.length + 1) l [] with
    | none => none
    | some (r, rest) =>
      match parseRecords fuel rest with
      | none => none
      | some rs => some (r :: rs)

/-- `csv.reader` over a whole file content. -/
def parseCsv (l : List Char) : Option (List (List String)) :=
  parseRecords (l.length + 1) l

/-! ## Python list slicing and `pick-csv-rows.py` -/

/-- Python's `l[:stop]` on a list, with clamping and negative-index
semantics: a negative stop counts from the end. -/
def pySliceStop {α : Type} (l : List α) (stop : Int) : List α :=
  if stop < 0 then l.take (l.length - (-stop).toNat) else l.take stop.toNat

/-- Python's `l[start:]` on a list, with clamping and negative-index
semantics: a negative start counts from the end. -/
def pySliceStart {α : Type} (l : List α) (start : Int) : List α :=
  if start < 0 then l.drop (l.length - (-start).toNat) else l.drop start.toNat

/-- The `Picker` enum of `pick-csv-rows.py`. -/
inductive Picker
  | HEAD
  | TAIL
deriving DecidableEq, Repr

/-- The method `Picker.pick` (lines 14-21): `HEAD` returns
`elements[:number]`, `TAIL` returns `elements[-number:]`. -/
def Picker.pick {α : Type} (p : Picker) (elements : List α) (number : Int) : List α :=
  match p with
  | Picker.HEAD => pySliceStop elements number
  | Picker.TAIL => pySliceStart elements (-number)

/-- The function `pick` (lines 23-28) at the row level: the CSV rows read
from the input stream are picked and written to the output stream. -/
def pick (rows : List (List String)) (picker : Picker) (number : Int) : List (List String) :=
  picker.pick rows number

/-! ## Denotation: what a finite remote result set looks like -/

/-- The fetch function serves, from cursor `after`, exactly the chain of
pages `pages`: each page is returned at the current cursor, non-final
pages have `has_next = true` and chain to the next page through their
`end_cursor`, and the final page has `has_next = false`. -/
inductive ServesChain (fetch : String → PaginatedList PullRequest) :
    String → List (PaginatedList PullRequest) → Prop
  | last {after : String} {p : PaginatedList PullRequest} :
      fetch after = p → p.has_next = false → ServesChain fetch after [p]
  | step {after : String} {p : PaginatedList PullRequest}
      {ps : List (PaginatedList PullRequest)} :
      fetch after = p → p.has_next = true → ServesChain fetch p.end_cursor ps →
      ServesChain fetch after (p :: ps)

/-- The cursors at which a chain of pages is fetched, in fetch order. -/
def chainCursors (after : String) : List (PaginatedList PullRequest) → List String
  | [] => []
  | p :: ps => after :: chainCursors p.end_cursor ps

/-- All pull requests of a chain of pages, in page and element order. -/
def pagePRs (pages : List (PaginatedList PullRequest)) : List PullRequest :=
  pages.flatMap (fun p => p.elements)

/-- The reviewed pull requests of a chain of pages (`review_count > 0`). -/
def reviewedPRs (pages : List (PaginatedList PullRequest)) : List PullRequest :=
  (pagePRs pages).filter (fun pr => decide (0 < pr.review_count))

/-- All review comments of the reviewed pull requests of a chain of
pages, in encounter order. -/
def allComments (w : World) (pages : List (PaginatedList PullRequest)) : List ReviewComment :=
  (reviewedPRs pages).flatMap (fun pr => get_pull_request_review_comments w pr.number)

/-- The comments that survive the (effective) extension filter of the
driver: all of them for `None` or the empty string, the path-matching
ones otherwise. -/
def eligibleComments (w : World) (pages : List (PaginatedList PullRequest)) :
    Option String → List ReviewComment
  | none => allComments w pages
  | some e =>
    if e = "" then allComments w pages
    else (allComments w pages).filter (fun rc => py_endswith rc.path e)

/-- The eligible comments as `(path, body)` rows. -/
def eligibleRows (w : World) (pages : List (PaginatedList PullRequest))
    (extension : Option String) : List (String × String) :=
  (eligibleComments w pages extension).map (fun rc => (rc.path, rc.body))

/-- The effective row cap of the driver: `None` and `0` mean no cap. -/
def effCap : Option Nat → Option Nat
  | none => none
  | some n => if n = 0 then none else some n

/-- Truncation by an optional cap. -/
def applyCap {α : Type} : Option Nat → List α → List α
  | none, l => l
  | some n, l => l.take n

/-! ## Trace lemmas -/

theorem evRows_append (a b : List Ev) : evRows (a ++ b) = evRows a ++ evRows b := by
  induction a with
  | nil => rfl
  | cons e rest ih => cases e <;> simp [evRows, ih]

theorem evQueries_append (a b : List Ev) :
    evQueries (a ++ b) = evQueries a ++ evQueries b := by
  induction a with
  | nil => rfl
  | cons e rest ih => cases e <;> simp [evQueries, ih]

/-- Row events built from a comment list project back to its rows. -/
theorem evRows_map_row (cs : List ReviewComment) :
    evRows (cs.map (fun rc => Ev.row rc.path rc.body)) =
      cs.map (fun rc => (rc.path, rc.body)) := by
  induction cs with
  | nil => rfl
  | cons c rest ih => simp [evRows, ih]

/-- The rows contributed by one pull request: its flattened comments when
it is reviewed, nothing otherwise. -/
theorem evRows_yieldCommentsForPR (w : World) (pr : PullRequest) :
    evRows (yieldCommentsForPR w pr) =
      if 0 < pr.review_count then
        (get_pull_request_review_comments w pr.number).map (fun rc => (rc.path, rc.body))
      else [] := by
  by_cases h : 0 < pr.review_count <;>
    simp [yieldCommentsForPR, h, evRows, evRows_map_row]

/-- The rows contributed by the pull requests of one page. -/
theorem evRows_flatMap_yield (w : World) (prs : List PullRequest) :
    evRows (prs.flatMap (yieldCommentsForPR w)) =
      ((prs.filter (fun pr => decide (0 < pr.review_count))).flatMap
        (fun pr => get_pull_request_review_comments w pr.number)).map
          (fun rc => (rc.path, rc.body)) := by
  induction prs with
  | nil => rfl
  | cons pr rest ih =>
    by_cases h : 0 < pr.review_count <;>
      simp [List.flatMap_cons, evRows_append, evRows_yieldCommentsForPR, h, ih,
        List.filter_cons]

/-- Denotation of the uncapped, unfiltered comment pipeline: under a
finite served chain with enough fuel, its rows are exactly the flattened
comments of the reviewed pull requests, in encounter order. -/
theorem evRows_iterate_prrc (w : World) {after : String}
    {pages : List (PaginatedList PullRequest)} {fuel : Nat}
    (hchain : ServesChain w.prFetch after pages) (hfuel : pages.length ≤ fuel) :
    evRows (iterate_pull_request_review_comments w fuel after) =
      (allComments w pages).map (fun rc => (rc.path, rc.body)) := by
  induction hchain generalizing fuel with
  | last hfetch hlast =>
    cases fuel with
    | zero => simp at hfuel
    | succ f =>
      simp [iterate_pull_request_review_comments, hfetch, hlast, evRows,
        allComments, reviewedPRs, pagePRs, evRows_flatMap_yield]
  | step hfetch hnext hrest ih =>
    cases fuel with
    | zero => simp at hfuel
    | succ f =>
      have hf : _ ≤ f := Nat.le_of_succ_le_succ hfuel
      simp [iterate_pull_request_review_comments, hfetch, hnext, evRows,
        evRows_append, ih hf, allComments, reviewedPRs, pagePRs,
        List.filter_append, List.flatMap_append, evRows_flatMap_yield]

/-- The filter stage keeps exactly the matching rows, in order. -/
theorem evRows_filterEvents (e : String) (tr : List Ev) :
    evRows (filterEvents e tr) = (evRows tr).filter (fun pb => py_endswith pb.1 e) := by
  induction tr with
  | nil => rfl
  | cons ev rest ih =>
    cases ev with
    | query q => simpa [filterEvents, evRows] using ih
    | row p b =>
      by_cases h : py_endswith p e <;> simp [filterEvents, evRows, h, ih, List.filter_cons]

/-- The filter stage passes every query through unchanged. -/
theorem evQueries_filterEvents (e : String) (tr : List Ev) :
    evQueries (filterEvents e tr) = evQueries tr := by
  induction tr with
  | nil => rfl
  | cons ev rest ih =>
    cases ev with
    | query q => simp [filterEvents, evQueries, ih]
    | row p b =>
      by_cases h : py_endswith p e <;> simp [filterEvents, evQueries, h, ih]

/-- The islice stage produces exactly the first `n` rows of the pipeline. -/
theorem evRows_isliceEvents (n : Nat) (tr : List Ev) :
    evRows (isliceEvents n tr) = (evRows tr).take n := by
  induction tr generalizing n with
  | nil => simp [isliceEvents, evRows]
  | cons ev rest ih =>
    cases ev with
    | query q =>
      by_cases h : n = 0 <;> simp [isliceEvents, evRows, h, ih]
    | row p b =>
      rcases n with _ | _ | m <;> simp [isliceEvents, evRows, ih, List.take_succ_cons]

/-- The islice stage consumes an initial segment of the pipeline: the
uncapped trace extends the capped one. -/
theorem isliceEvents_initial (n : Nat) (tr : List Ev) :
    ∃ rest, tr = isliceEvents n tr ++ rest := by
  induction tr generalizing n with
  | nil => exact ⟨[], rfl⟩
  | cons ev rest ih =>
    cases ev with
    | query q =>
      by_cases h : n = 0
      · exact ⟨Ev.query q :: rest, by simp [isliceEvents, h]⟩
      · obtain ⟨r, hr⟩ := ih n
        exact ⟨r, by simp [isliceEvents, h]; exact hr⟩
    | row p b =>
      rcases n with _ | _ | m
      · exact ⟨Ev.row p b :: rest, by simp [isliceEvents]⟩
      · exact ⟨rest, by simp [isliceEvents]⟩
      · obtain ⟨r, hr⟩ := ih (m + 1)
        exact ⟨r, by simp [isliceEvents]; exact hr⟩

/-- When at least `n ≥ 1` rows are available, the capped trace ends with
the `n`-th row event: nothing at all — in particular no query — comes
after the `n`-th produced comment. -/
theorem isliceEvents_ends_with_row {n : Nat} {tr : List Ev}
    (hn : 0 < n) (hlen : n ≤ (evRows tr).length) :
    ∃ pre p b, isliceEvents n tr = pre ++ [Ev.row p b] := by
  induction tr generalizing n with
  | nil => simp [evRows] at hlen; omega
  | cons ev rest ih =>
    cases ev with
    | query q =>
      have hn' : ¬ n = 0 := Nat.pos_iff_ne_zero.mp hn
      obtain ⟨pre, p, b, hpre⟩ := ih hn (by simpa [evRows] using hlen)
      exact ⟨Ev.query q :: pre, p, b, by simp [isliceEvents, hn', hpre]⟩
    | row p b =>
      rcases n with _ | _ | m
      · omega
      · exact ⟨[], p, b, by simp [isliceEvents]⟩
      · have hlen' : m + 1 ≤ (evRows rest).length := by
          simpa [evRows] using hlen
        obtain ⟨pre, p', b', hpre⟩ := ih (Nat.succ_pos m) hlen'
        exact ⟨Ev.row p b :: pre, p', b', by simp [isliceEvents, hpre]⟩

/-- Denotation of the full driver: under a finite served chain with
enough fuel, the rows written to the output file are exactly the eligible
comments (merged, reviewed, extension-matching), truncated by the
effective cap. -/
theorem evRows_download (w : World) {pages : List (PaginatedList PullRequest)}
    {fuel : Nat} (extension : Option String) (max_rows : Option Nat)
    (hchain : ServesChain w.prFetch "" pages) (hfuel : pages.length ≤ fuel) :
    evRows (download_pull_request_review_comments w fuel extension max_rows) =
      applyCap (effCap max_rows) (eligibleRows w pages extension) := by
  have hit1 :
      evRows (match extension with
        | none => iterate_pull_request_review_comments w fuel ""
        | some e => if e = "" then iterate_pull_request_review_comments w fuel ""
          else filterEvents e (iterate_pull_request_review_comments w fuel "")) =
        eligibleRows w pages extension := by
    match extension with
    | none =>
      simp [evRows_iterate_prrc w hchain hfuel, eligibleRows, eligibleComments]
    | some e =>
      by_cases he : e = ""
      · simp [he, evRows_iterate_prrc w hchain hfuel, eligibleRows, eligibleComments]
      · simp [he, evRows_filterEvents, evRows_iterate_prrc w hchain hfuel,
          eligibleRows, eligibleComments, List.filter_map, Function.comp_def]
  match max_rows with
  | none =>
    simpa [download_pull_request_review_comments, effCap, applyCap] using hit1
  | some n =>
    by_cases hn : n = 0
    · simpa [download_pull_request_review_comments, effCap, applyCap, hn] using hit1
    · simpa [download_pull_request_review_comments, effCap, applyCap, hn,
        evRows_isliceEvents] using congrArg (List.take n) hit1

/-- C3: for every paginated result set served as a chain of pages, the
pull-request enumerator yields exactly the concatenation of the pages'
elements in page and element order, performs exactly one fetch per page
(at the cursors of the chain, in order — the second at the first page's
`endCursor`), and stops after the page whose `hasNextPage` flag is
false. -/
theorem claim_C3_pagination {fetch : String → PaginatedList PullRequest}
    {after : String} {pages : List (PaginatedList PullRequest)} {fuel : Nat}
    (hchain : ServesChain fetch after pages) (hfuel : pages.length ≤ fuel) :
    iterate_pull_requests fetch fuel after = (pagePRs pages, chainCursors after pages) := by
  induction hchain generalizing fuel with
  | last hfetch hlast =>
    cases fuel with
    | zero => simp at hfuel
    | succ f =>
      simp [iterate_pull_requests, hfetch, hlast, pagePRs, chainCursors]
  | step hfetch hnext hrest ih =>
    cases fuel with
    | zero => simp at hfuel
    | succ f =>
      have hf : _ ≤ f := Nat.le_of_succ_le_succ hfuel
      simp [iterate_pull_requests, hfetch, hnext, ih hf, pagePRs, chainCursors]

/-- Row events carry no queries. -/
theorem evQueries_map_row (cs : List ReviewComment) :
    evQueries (cs.map (fun rc => Ev.row rc.path rc.body)) = [] := by
  induction cs with
  | nil => rfl
  | cons c rest ih => simpa [evQueries] using ih

/-- A comment query in the events of one page comes from a reviewed pull
request of that page with that number. -/
theorem comments_query_of_page {w : World} {prs : List PullRequest} {n : Nat}
    (h : Query.comments n ∈ evQueries (prs.flatMap (yieldCommentsForPR w))) :
    ∃ pr ∈ prs, pr.number = n ∧ 0 < pr.review_count := by
  induction prs with
  | nil => simp [evQueries] at h
  | cons pr rest ih =>
    rw [List.flatMap_cons, evQueries_append] at h
    rcases List.mem_append.mp h with hl | hr
    · by_cases hrev : 0 < pr.review_count
      · simp [yieldCommentsForPR, hrev, evQueries, evQueries_map_row] at hl
        exact ⟨pr, List.mem_cons_self pr rest, hl.symm, hrev⟩
      · simp [yieldCommentsForPR, hrev, evQueries] at hl
    · obtain ⟨pr', hmem, hnum, hrev⟩ := ih hr
      exact ⟨pr', List.mem_cons_of_mem pr hmem, hnum, hrev⟩

/-- C4: the comment-enumeration pipeline issues a per-PR review-comment
query only for pull requests with `reviewCount > 0`: every comment query
in its trace is for a pull request that the enumerator yielded with a
positive review count, so no query is ever issued for a pull request
whose review count is zero. -/
theorem claim_C4_reviewed_only {w : World} {fuel : Nat} {after : String} {n : Nat}
    (h : Query.comments n ∈ evQueries (iterate_pull_request_review_comments w fuel after)) :
    ∃ pr ∈ (iterate_pull_requests w.prFetch fuel after).1,
      pr.number = n ∧ 0 < pr.review_count := by
  induction fuel generalizing after with
  | zero => simp [iterate_pull_request_review_comments, evQueries] at h
  | succ f ih =>
    by_cases hnx : (w.prFetch after).has_next
    · simp only [iterate_pull_request_review_comments, hnx, if_true, evQueries,
        List.append_eq, evQueries_append, List.mem_cons, List.mem_append,
        reduceCtorEq, false_or] at h
      rcases h with hhere | hlater
      · obtain ⟨pr, hmem, hnum, hrev⟩ := comments_query_of_page hhere
        refine ⟨pr, ?_, hnum, hrev⟩
        rw [iterate_pull_requests]
        simp [hnx, List.mem_append, hmem]
      · obtain ⟨pr, hmem, hnum, hrev⟩ := ih hlater
        refine ⟨pr, ?_, hnum, hrev⟩
        rw [iterate_pull_requests]
        simp [hnx, List.mem_append, hmem]
    · simp only [iterate_pull_request_review_comments, hnx, if_false, evQueries,
        List.append_eq, evQueries_append, List.mem_cons, List.mem_append,
        reduceCtorEq, false_or, Bool.not_eq_true] at h
      simp only [List.not_mem_nil, or_false] at h
      obtain ⟨pr, hmem, hnum, hrev⟩ := comments_query_of_page h
      refine ⟨pr, ?_, hnum, hrev⟩
      rw [iterate_pull_requests]
      simp [hnx, hmem]

/-! ## CSV round-trip lemmas -/

theorem pq_quote_nil (acc : List Char) :
    parseQuotedField ['"'] acc = some (⟨acc⟩, []) := rfl

theorem pq_quote_quote (rest acc : List Char) :
    parseQuotedField ('"' :: '"' :: rest) acc = parseQuotedField rest (acc ++ ['"']) := rfl

theorem pq_quote_other {c : Char} (h : c ≠ '"') (rest acc : List Char) :
    parseQuotedField ('"' :: c :: rest) acc = some (⟨acc⟩, c :: rest) := by
  rw [parseQuotedField.eq_def]
  simp [h]

theorem pq_other {c : Char} (h : c ≠ '"') (rest acc : List Char) :
    parseQuotedField (c :: rest) acc = parseQuotedField rest (acc ++ [c]) := by
  rw [parseQuotedField.eq_def]
  simp [h]

/-- Parsing the escaped body of a quoted field followed by the closing
quote recovers the body, as long as what follows the closing quote does
not begin with another quote. -/
theorem parseQuotedField_escape (s : List Char) (acc rest : List Char)
    (h : rest.head? ≠ some '"') :
    parseQuotedField (escapeChars s ++ '"' :: rest) acc = some (⟨acc ++ s⟩, rest) := by
  induction s generalizing acc with
  | nil =>
    match rest with
    | [] => simpa [escapeChars] using pq_quote_nil acc
    | c :: t =>
      have hc : c ≠ '"' := by
        intro hc
        exact h (by simp [hc])
      simpa [escapeChars] using pq_quote_other hc t acc
  | cons c s ih =>
    by_cases hc : c = '"'
    · subst hc
      rw [escapeChars, if_pos rfl, List.cons_append, List.cons_append, pq_quote_quote,
        ih (acc ++ ['"'])]
      simp
    · rw [escapeChars, if_neg hc, List.cons_append, pq_other hc, ih (acc ++ [c])]
      simp

/-- Parsing a bare field whose characters contain no terminator, followed
by a terminator (or the end of input), recovers the field. -/
theorem parseBareField_clean (s : List Char) (acc rest : List Char)
    (hs : ∀ c ∈ s, isFieldEnd c = false)
    (hrest : rest = [] ∨ ∃ c t, rest = c :: t ∧ isFieldEnd c = true) :
    parseBareField (s ++ rest) acc = (⟨acc ++ s⟩, rest) := by
  induction s generalizing acc with
  | nil =>
    rcases hrest with h | ⟨c, t, hct, hend⟩
    · simp [h, parseBareField]
    · simp [hct, parseBareField, hend]
  | cons c s ih =>
    have hc : isFieldEnd c = false := hs c (List.mem_cons_self c s)
    rw [List.cons_append, parseBareField, if_neg (by simp [hc]), ih (acc ++ [c])
      (fun c hc => hs c (List.mem_cons_of_mem _ hc))]
    simp

/-- Characters of a field that needs no quoting are neither terminators
nor quotes. -/
theorem not_needsQuoting_clean {s : List Char} (h : needsQuoting s = false) :
    (∀ c ∈ s, isFieldEnd c = false) ∧ ∀ c ∈ s, c ≠ '"' := by
  have key : ∀ c ∈ s, ¬(c = ',' ∨ c = '"' ∨ c = '\r' ∨ c = '\n') := by
    intro c hc hor
    have htrue : needsQuoting s = true := by
      simp only [needsQuoting, List.any_eq_true]
      refine ⟨c, hc, ?_⟩
      rcases hor with h1 | h1 | h1 | h1 <;> simp [h1]
    simp [h] at htrue
  constructor
  · intro c hc
    have hk := key c hc
    push_neg at hk
    simp [isFieldEnd, hk.1, hk.2.2.1, hk.2.2.2]
  · intro c hc
    exact fun hq => key c hc (Or.inr (Or.inl hq))

/-- Parsing a written field followed by a terminator (or the end of
input) recovers the field and leaves the terminator. -/
theorem parseField_writeField (s : List Char) (rest : List Char)
    (hrest : rest = [] ∨ ∃ c t, rest = c :: t ∧ isFieldEnd c = true) :
    parseField (writeField s ++ rest) = some (⟨s⟩, rest) := by
  have hrq : rest.head? ≠ some '"' := by
    rcases hrest with h | ⟨c, t, hct, hend⟩
    · simp [h]
    · have : c ≠ '"' := by
        intro hc
        rw [hc] at hend
        simp [isFieldEnd] at hend
      simp [hct, this]
  by_cases hq : needsQuoting s
  · rw [writeField, if_pos hq]
    rw [List.cons_append, List.append_assoc, List.cons_append, List.nil_append]
    rw [parseField, if_pos rfl]
    exact parseQuotedField_escape s [] rest hrq
  · obtain ⟨hclean, hnoq⟩ := not_needsQuoting_clean (Bool.eq_false_iff.mpr hq)
    rw [writeField, if_neg hq]
    match s with
    | [] =>
      rcases hrest with h | ⟨c, t, hct, hend⟩
      · simp [h, parseField]
      · have hc : c ≠ '"' := by
          intro hcq
          rw [hcq] at hend
          simp [isFieldEnd] at hend
        rw [hct, List.nil_append, parseField, if_neg hc,
          parseBareField, if_pos hend]
    | c0 :: s' =>
      have hc0 : c0 ≠ '"' := hnoq c0 (List.mem_cons_self c0 s')
      rw [List.cons_append, parseField, if_neg hc0, ← List.cons_append]
      rw [parseBareField_clean (c0 :: s') [] rest hclean hrest]
      simp

/-- A two-field row terminator or separator is a field-end character. -/
theorem isFieldEnd_comma : isFieldEnd ',' = true := by decide

theorem isFieldEnd_cr : isFieldEnd '\r' = true := by decide

/-- Parsing one written `(path, body)` row consumes exactly that row,
recovering both fields. -/
theorem parseRecordAux_writeRow (p b : List Char) (rest : List Char)
    (fields : List String) (fuel : Nat) :
    parseRecordAux (fuel + 2) (writeRow p b ++ rest) fields =
      some (fields ++ [⟨p⟩, ⟨b⟩], rest) := by
  have hrow : writeRow p b ++ rest =
      writeField p ++ (',' :: (writeField b ++ '\r' :: '\n' :: rest)) := by
    simp [writeRow]
  rw [hrow]
  rw [parseRecordAux, parseField_writeField p (',' :: (writeField b ++ '\r' :: '\n' :: rest))
    (Or.inr ⟨',', _, rfl, isFieldEnd_comma⟩)]
  simp only [if_pos rfl]
  rw [parseRecordAux, parseField_writeField b ('\r' :: '\n' :: rest)
    (Or.inr ⟨'\r', _, rfl, isFieldEnd_cr⟩)]
  simp only [if_neg (show ('\r' : Char) ≠ ',' by decide), if_pos rfl]
  simp

/-- A written row is at least three characters long. -/
theorem writeRow_length (p b : List Char) : 3 ≤ (writeRow p b).length := by
  simp [writeRow]
  omega

theorem parseRecords_cons (f : Nat) (c : Char) (cs : List Char) :
    parseRecords (f + 1) (c :: cs) =
      match parseRecordAux ((c :: cs).length + 1) (c :: cs) [] with
      | none => none
      | some (r, rest) =>
        match parseRecords f rest with
        | none => none
        | some rs => some (r :: rs) := by
  rfl

/-- Parsing a written file with enough record fuel recovers every
`(path, body)` row. -/
theorem parseRecords_writeCsv (rows : List (String × String)) (fuel : Nat)
    (hfuel : rows.length < fuel) :
    parseRecords fuel (writeCsv rows) =
      some (rows.map (fun r => [r.1, r.2])) := by
  induction rows generalizing fuel with
  | nil => cases fuel <;> rfl
  | cons r rs ih =>
    cases fuel with
    | zero => omega
    | succ f =>
      have hne : writeCsv (r :: rs) = writeRow r.1.data r.2.data ++ writeCsv rs := by
        simp [writeCsv]
      have hlen : 1 ≤ (writeRow r.1.data r.2.data ++ writeCsv rs).length := by
        have := writeRow_length r.1.data r.2.data
        simp only [List.length_append]
        omega
      match hshape : writeRow r.1.data r.2.data ++ writeCsv rs with
      | [] => rw [hshape] at hlen; simp at hlen
      | c :: cs =>
        rw [hne, hshape, parseRecords_cons]
        obtain ⟨k, hk⟩ : ∃ k, (c :: cs).length + 1 = k + 2 := ⟨(c :: cs).length - 1, by simp⟩
        rw [hk, ← hshape, parseRecordAux_writeRow r.1.data r.2.data (writeCsv rs) [] k]
        have hrs : rs.length < f := by
          simp only [List.length_cons] at hfuel
          omega
        simp [ih f hrs]

/-- A written file has at least one character per row. -/
theorem writeCsv_length (rows : List (String × String)) :
    rows.length ≤ (writeCsv rows).length := by
  induction rows with
  | nil => simp [writeCsv]
  | cons r rs ih =>
    have h3 := writeRow_length r.1.data r.2.data
    simp only [writeCsv, List.flatMap_cons, List.length_append, List.length_cons] at *
    omega

/-- C5: round trip — for every sequence of `(path, body)` pairs,
including pairs whose fields contain commas, double quotes or embedded
newlines, writing them as CSV rows the way the download driver does and
parsing the resulting file content back with a standard CSV reader
yields exactly the same sequence of `(path, body)` pairs. -/
theorem claim_C5_csv_round_trip (rows : List (String × String)) :
    parseCsv (writeCsv rows) = some (rows.map (fun r => [r.1, r.2])) :=
  parseRecords_writeCsv rows ((writeCsv rows).length + 1)
    (Nat.lt_succ_of_le (writeCsv_length rows))

/-! ## Auxiliary facts for the remaining claims -/

/-- The empty extension matches every path, as Python's
`"...".endswith("")` does. -/
theorem py_endswith_nil (s : String) : py_endswith s "" = true := by
  show List.isSuffixOf [] s.data = true
  simp

/-! ## Concrete instances used by witnesses and counterexamples -/

/-- A single final page with one reviewed and one unreviewed PR. -/
def exPage : PaginatedList PullRequest := ⟨[⟨1, 1⟩, ⟨2, 0⟩], "done", false⟩

/-- One review carrying a `.kt` comment and a `.py` comment. -/
def exReviews : List Review :=
  [⟨"r1", [⟨"i1", "a.kt", "hello"⟩, ⟨"i2", "b.py", "bye"⟩]⟩]

/-- A world serving `exPage` at every cursor and `exReviews` for every
pull request. -/
def exWorld : World := ⟨fun _ => exPage, fun _ => exReviews⟩

/-- A repository with zero merged pull requests. -/
def emptyWorld : World := ⟨fun _ => ⟨[], "nil", false⟩, fun _ => []⟩

/-- First page of a two-page result set: `hasNext = true`, cursor `c1`. -/
def pageOne : PaginatedList PullRequest := ⟨[⟨1, 2⟩, ⟨2, 0⟩], "c1", true⟩

/-- Second page of a two-page result set: `hasNext = false`. -/
def pageTwo : PaginatedList PullRequest := ⟨[⟨3, 1⟩], "c2", false⟩

/-- A fetch function serving the two-page result set. -/
def twoPageFetch : String → PaginatedList PullRequest :=
  fun after => if after = "c1" then pageTwo else pageOne

/-- The two-page fetch function serves the chain `[pageOne, pageTwo]`
from the empty start cursor. -/
theorem twoPageServes : ServesChain twoPageFetch "" [pageOne, pageTwo] :=
  @ServesChain.step twoPageFetch "" pageOne [pageTwo] rfl rfl (ServesChain.last rfl rfl)

/-- A concrete 10-row CSV input. -/
def ex10 : List (List String) :=
  [["1"], ["2"], ["3"], ["4"], ["5"], ["6"], ["7"], ["8"], ["9"], ["10"]]

/-! ## Claims -/

/-- Witness for C3 at the two-page result set: two fetches, the first at
the empty cursor and the second at cursor `c1`, yielding the
concatenation of both pages' elements in order. -/
theorem claim_C3_pagination_witness :
    iterate_pull_requests twoPageFetch 2 "" =
      ([⟨1, 2⟩, ⟨2, 0⟩, ⟨3, 1⟩], ["", "c1"]) := by
  rw [claim_C3_pagination twoPageServes (by decide)]
  rfl

/-- Witness for C4: in `exWorld` the pipeline issues the comment query
for PR 1, and the theorem locates a reviewed PR with that number. -/
theorem claim_C4_reviewed_only_witness :
    ∃ pr ∈ (iterate_pull_requests exWorld.prFetch 1 "").1,
      pr.number = 1 ∧ 0 < pr.review_count :=
  @claim_C4_reviewed_only exWorld 1 "" 1 (by decide)

/-- C1 as stated is false at `N = 0`: with more than zero eligible
comments available, `maxRows = 0` does not write exactly zero rows —
Python's `if max_rows:` treats `0` as no cap, so every eligible comment
is written. -/
theorem claim_C1_counterexample :
    0 < (eligibleRows exWorld [exPage] none).length ∧
    ServesChain exWorld.prFetch "" [exPage] ∧
    (evRows (download_pull_request_review_comments exWorld 1 none (some 0))).length ≠ 0 :=
  ⟨by decide, ServesChain.last rfl rfl, by decide⟩

/-- C1 (amended to positive caps): for every repository state with more
than `N` eligible comments and every `N > 0`, downloading with
`maxRows = N` writes exactly the first `N` eligible rows in encounter
order, the capped trace ends with the production of the `N`-th eligible
comment (so no page or pull-request query is issued after it), and the
capped trace is an initial segment of the uncapped one. -/
theorem claim_C1_cap_short_circuit (w : World) (fuel : Nat) (extension : Option String)
    (N : Nat) {pages : List (PaginatedList PullRequest)}
    (hchain : ServesChain w.prFetch "" pages) (hfuel : pages.length ≤ fuel)
    (hN : 0 < N) (hmore : N < (eligibleRows w pages extension).length) :
    evRows (download_pull_request_review_comments w fuel extension (some N)) =
      (eligibleRows w pages extension).take N ∧
    (evRows (download_pull_request_review_comments w fuel extension (some N))).length = N ∧
    (∃ pre p b, download_pull_request_review_comments w fuel extension (some N) =
      pre ++ [Ev.row p b]) ∧
    ∃ rest, download_pull_request_review_comments w fuel extension none =
      download_pull_request_review_comments w fuel extension (some N) ++ rest := by
  have hNne : N ≠ 0 := Nat.pos_iff_ne_zero.mp hN
  have hrows : evRows (download_pull_request_review_comments w fuel extension (some N)) =
      (eligibleRows w pages extension).take N := by
    rw [evRows_download w extension (some N) hchain hfuel]
    simp [effCap, hNne, applyCap]
  have hnone : evRows (download_pull_request_review_comments w fuel extension none) =
      eligibleRows w pages extension := by
    rw [evRows_download w extension none hchain hfuel]
    simp [effCap, applyCap]
  have hsome : download_pull_request_review_comments w fuel extension (some N) =
      isliceEvents N (download_pull_request_review_comments w fuel extension none) := by
    cases extension with
    | none => simp [download_pull_request_review_comments, hNne]
    | some e =>
      by_cases he : e = "" <;>
        simp [download_pull_request_review_comments, hNne, he]
  refine ⟨hrows, ?_, ?_, ?_⟩
  · rw [hrows, List.length_take]
    omega
  · rw [hsome]
    exact isliceEvents_ends_with_row hN (by rw [hnone]; omega)
  · rw [hsome]
    exact isliceEvents_initial N _

/-- Witness for the amended C1 at `exWorld` with `N = 1`: one row
written, the capped trace ends with that row, and the uncapped trace
extends the capped one. -/
theorem claim_C1_cap_short_circuit_witness :
    evRows (download_pull_request_review_comments exWorld 1 none (some 1)) =
      (eligibleRows exWorld [exPage] none).take 1 ∧
    (evRows (download_pull_request_review_comments exWorld 1 none (some 1))).length = 1 ∧
    (∃ pre p b, download_pull_request_review_comments exWorld 1 none (some 1) =
      pre ++ [Ev.row p b]) ∧
    ∃ rest, download_pull_request_review_comments exWorld 1 none none =
      download_pull_request_review_comments exWorld 1 none (some 1) ++ rest :=
  claim_C1_cap_short_circuit exWorld 1 none 1 (ServesChain.last rfl rfl)
    (by decide) (by decide) (by decide)

/-- C2: with an extension filter set, every row written by the driver
has a path ending with the filter string, and non-matching comments are
dropped before the cap is counted: the rows written under cap `N` are
the first `N` of the *filtered* comment sequence, so dropped comments
never consume a slot of the cap. -/
theorem claim_C2_extension_filter (w : World) (fuel : Nat) (e : String)
    {pages : List (PaginatedList PullRequest)}
    (hchain : ServesChain w.prFetch "" pages) (hfuel : pages.length ≤ fuel) :
    (∀ max_rows : Option Nat, ∀ pb ∈ evRows
        (download_pull_request_review_comments w fuel (some e) max_rows),
      py_endswith pb.1 e = true) ∧
    ∀ N : Nat, 0 < N →
      evRows (download_pull_request_review_comments w fuel (some e) (some N)) =
        (((allComments w pages).filter (fun rc => py_endswith rc.path e)).map
          (fun rc => (rc.path, rc.body))).take N := by
  have key : eligibleRows w pages (some e) =
      ((allComments w pages).filter (fun rc => py_endswith rc.path e)).map
        (fun rc => (rc.path, rc.body)) := by
    by_cases he : e = ""
    · subst he
      rw [List.filter_eq_self.mpr (fun rc _ => py_endswith_nil rc.path)]
      simp [eligibleRows, eligibleComments]
    · simp [eligibleRows, eligibleComments, he]
  constructor
  · intro mr pb hmem
    rw [evRows_download w (some e) mr hchain hfuel] at hmem
    have hmem' : pb ∈ eligibleRows w pages (some e) := by
      cases hcap : effCap mr with
      | none =>
        rw [hcap] at hmem
        simpa [applyCap] using hmem
      | some n =>
        rw [hcap] at hmem
        simp only [applyCap] at hmem
        exact List.mem_of_mem_take hmem
    rw [key] at hmem'
    obtain ⟨rc, hrc, hpb⟩ := List.mem_map.mp hmem'
    have hf := List.of_mem_filter hrc
    rw [← hpb]
    exact hf
  · intro N hN
    rw [evRows_download w (some e) (some N) hchain hfuel, key]
    simp [effCap, Nat.pos_iff_ne_zero.mp hN, applyCap]

/-- Witness for C2 at `exWorld` with filter `.kt` and cap 1: the written
rows are the first row of the filtered comment sequence. -/
theorem claim_C2_extension_filter_witness :
    evRows (download_pull_request_review_comments exWorld 1 (some ".kt") (some 1)) =
      (((allComments exWorld [exPage]).filter (fun rc => py_endswith rc.path ".kt")).map
        (fun rc => (rc.path, rc.body))).take 1 :=
  (claim_C2_extension_filter exWorld 1 ".kt" (ServesChain.last rfl rfl) (by decide)).2
    1 (by decide)

/-- C6: for a repository with zero merged pull requests (first page
empty with `hasNext = false`) the download completes with zero rows and
an empty output file, whatever filter and cap are supplied. -/
theorem claim_C6_empty_repo (w : World) (fuel : Nat) (extension : Option String)
    (max_rows : Option Nat) (cursor : String)
    (hempty : w.prFetch "" = ⟨[], cursor, false⟩) (hfuel : 0 < fuel) :
    evRows (download_pull_request_review_comments w fuel extension max_rows) = [] ∧
    downloadFileContent w fuel extension max_rows = [] := by
  have hchain : ServesChain w.prFetch "" [⟨[], cursor, false⟩] :=
    ServesChain.last hempty rfl
  have hel : eligibleRows w [⟨[], cursor, false⟩] extension = [] := by
    cases extension with
    | none => simp [eligibleRows, eligibleComments, allComments, reviewedPRs, pagePRs]
    | some e =>
      by_cases he : e = "" <;>
        simp [eligibleRows, eligibleComments, allComments, reviewedPRs, pagePRs, he]
  have h1 : evRows (download_pull_request_review_comments w fuel extension max_rows) = [] := by
    rw [evRows_download w extension max_rows hchain (by simpa using hfuel), hel]
    cases effCap max_rows <;> simp [applyCap]
  exact ⟨h1, by rw [downloadFileContent, h1]; rfl⟩

/-- Witness for C6 at the concrete empty repository. -/
theorem claim_C6_empty_repo_witness :
    evRows (download_pull_request_review_comments emptyWorld 1 (some ".kt") none) = [] ∧
    downloadFileContent emptyWorld 1 (some ".kt") none = [] :=
  claim_C6_empty_repo emptyWorld 1 (some ".kt") none "nil" rfl (by decide)

/-- C8: when the credential variable is absent or empty the script stops
with the exact error message and exit status 1 and issues no remote
query at all; when it is set to a non-empty string the startup check
passes, returning the token. -/
theorem claim_C8_token_check (env : Option String) (w : World) (fuel : Nat)
    (extension : Option String) (max_rows : Option Nat) :
    ((env = none ∨ env = some "") →
      run_main env w fuel extension max_rows =
        (some ("ERROR: GITHUB_TOKEN is not available", 1), [])) ∧
    ∀ t : String, env = some t → t ≠ "" → startup_check env = Except.ok t := by
  constructor
  · rintro (rfl | rfl) <;> rfl
  · rintro t rfl ht
    simp [startup_check, ht]

/-- Witness for C8: the absent-token and valid-token cases at concrete
inputs. -/
theorem claim_C8_token_check_witness :
    run_main none emptyWorld 1 none none =
      (some ("ERROR: GITHUB_TOKEN is not available", 1), []) ∧
    startup_check (some "tok") = Except.ok "tok" :=
  ⟨(claim_C8_token_check none emptyWorld 1 none none).1 (Or.inl rfl),
    (claim_C8_token_check (some "tok") emptyWorld 1 none none).2 "tok" rfl (by decide)⟩

/-- C9: passing `max_rows = 0` disables the cap entirely — the run is
identical to passing no cap, so every eligible comment is written; in
the concrete world both eligible comments are written rather than zero
rows, so a caller cannot request an empty capped download by passing 0. -/
theorem claim_C9_zero_cap_ignored :
    (∀ (w : World) (fuel : Nat) (extension : Option String),
      download_pull_request_review_comments w fuel extension (some 0) =
        download_pull_request_review_comments w fuel extension none) ∧
    evRows (download_pull_request_review_comments exWorld 1 none (some 0)) =
      [("a.kt", "hello"), ("b.py", "bye")] := by
  constructor
  · intro w fuel extension
    rfl
  · decide

/-- Python's `elements[:N]` for a natural `N` is `take N`. -/
theorem pySliceStop_natCast {α : Type} (l : List α) (N : Nat) :
    pySliceStop l (N : Int) = l.take N := by
  rw [pySliceStop, if_neg (by omega : ¬(N : Int) < 0)]
  simp

/-- C7: for every CSV input and every positive `N` not exceeding the row
count, `pick head N` emits exactly the first `N` rows unchanged and
`pick tail N` emits exactly the last `N` rows unchanged. -/
theorem claim_C7_pick_head_tail (rows : List (List String)) (N : Nat)
    (h1 : 0 < N) (_h2 : N ≤ rows.length) :
    pick rows Picker.HEAD (N : Int) = rows.take N ∧
    pick rows Picker.TAIL (N : Int) = rows.drop (rows.length - N) := by
  constructor
  · show pySliceStop rows (N : Int) = rows.take N
    exact pySliceStop_natCast rows N
  · show pySliceStart rows (-(N : Int)) = rows.drop (rows.length - N)
    rw [pySliceStart, if_pos (by omega : -(N : Int) < 0)]
    simp

/-- Witness for C7 on a concrete 10-row input with `N = 3`: head picks
rows 1-3 and tail picks rows 8-10, unchanged. -/
theorem claim_C7_pick_head_tail_witness :
    pick ex10 Picker.HEAD (3 : Int) = [["1"], ["2"], ["3"]] ∧
    pick ex10 Picker.TAIL (3 : Int) = [["8"], ["9"], ["10"]] := by
  have h := claim_C7_pick_head_tail ex10 3 (by decide) (by decide)
  exact ⟨h.1.trans (by decide), h.2.trans (by decide)⟩

/-- C10: the pick script is asymmetric at `number = 0` — `head 0` emits
no rows but `tail 0` emits *all* rows (Python's `elements[-0:]` is the
whole list) — and for every `N` greater than the row count both modes
emit all rows without error. -/
theorem claim_C10_pick_zero (rows : List (List String)) (N : Nat)
    (h : rows.length < N) :
    pick rows Picker.HEAD (0 : Int) = [] ∧
    pick rows Picker.TAIL (0 : Int) = rows ∧
    pick rows Picker.HEAD (N : Int) = rows ∧
    pick rows Picker.TAIL (N : Int) = rows := by
  refine ⟨?_, ?_, ?_, ?_⟩
  · show pySliceStop rows (0 : Int) = []
    rw [pySliceStop, if_neg (by omega : ¬(0 : Int) < 0)]
    simp
  · show pySliceStart rows (-(0 : Int)) = rows
    rw [neg_zero, pySliceStart, if_neg (by omega : ¬(0 : Int) < 0)]
    simp
  · show pySliceStop rows (N : Int) = rows
    rw [pySliceStop_natCast]
    exact List.take_of_length_le (le_of_lt h)
  · show pySliceStart rows (-(N : Int)) = rows
    rw [pySliceStart, if_pos (by omega : -(N : Int) < 0)]
    simp [Nat.sub_eq_zero_of_le (le_of_lt h)]

/-- Witness for C10 on the concrete 10-row input with `N = 11`. -/
theorem claim_C10_pick_zero_witness :
    pick ex10 Picker.HEAD (0 : Int) = [] ∧
    pick ex10 Picker.TAIL (0 : Int) = ex10 ∧
    pick ex10 Picker.HEAD ((11 : Nat) : Int) = ex10 ∧
    pick ex10 Picker.TAIL ((11 : Nat) : Int) = ex10 :=
  claim_C10_pick_zero ex10 11 (by decide)

end PyTools
